import Mathlib

/-!
Verification development for the category analysis engine
(`analyze_categories.py`): normalizer, tree builder, classifier and
statistics aggregator, shallowly embedded over a universe of
dynamically-typed values.
-/

set_option autoImplicit false

/-- Universe of dynamic (JSON-like) values manipulated by the scripts:
`None`, integers, strings, booleans, lists and string-keyed mappings. -/
inductive PyVal where
  | none : PyVal
  | int : Int → PyVal
  | str : String → PyVal
  | bool : Bool → PyVal
  | list : List PyVal → PyVal
  | dict : List (String × PyVal) → PyVal

mutual

/-- Structural equality test on dynamic values. -/
def PyVal.beq : PyVal → PyVal → Bool
  | .none, .none => true
  | .int a, .int b => a == b
  | .str a, .str b => a == b
  | .bool a, .bool b => a == b
  | .list a, .list b => pyBeqL a b
  | .dict a, .dict b => pyBeqD a b
  | _, _ => false

/-- Structural equality test on lists of dynamic values. -/
def pyBeqL : List PyVal → List PyVal → Bool
  | [], [] => true
  | x :: xs, y :: ys => PyVal.beq x y && pyBeqL xs ys
  | _, _ => false

/-- Structural equality test on string-keyed mappings. -/
def pyBeqD : List (String × PyVal) → List (String × PyVal) → Bool
  | [], [] => true
  | (k, x) :: xs, (l, y) :: ys => (k == l && PyVal.beq x y) && pyBeqD xs ys
  | _, _ => false

end

mutual

theorem pyBeq_iff : ∀ a b : PyVal, PyVal.beq a b = true ↔ a = b
  | .none, b => by cases b <;> simp [PyVal.beq]
  | .int a, b => by cases b <;> simp [PyVal.beq]
  | .str a, b => by cases b <;> simp [PyVal.beq]
  | .bool a, b => by cases b <;> simp [PyVal.beq]
  | .list a, b => by
      cases b <;> simp [PyVal.beq]
      exact pyBeqL_iff a _
  | .dict a, b => by
      cases b <;> simp [PyVal.beq]
      exact pyBeqD_iff a _

theorem pyBeqL_iff : ∀ a b : List PyVal, pyBeqL a b = true ↔ a = b
  | [], b => by cases b <;> simp [pyBeqL]
  | x :: xs, b => by
      cases b <;> simp [pyBeqL]
      rw [pyBeq_iff, pyBeqL_iff]

theorem pyBeqD_iff : ∀ a b : List (String × PyVal), pyBeqD a b = true ↔ a = b
  | [], b => by cases b <;> simp [pyBeqD]
  | (k, x) :: xs, b => by
      cases b with
      | nil => simp [pyBeqD]
      | cons hd tl =>
          obtain ⟨l, y⟩ := hd
          simp only [pyBeqD, Bool.and_eq_true, beq_iff_eq, Prod.mk.injEq,
            List.cons.injEq]
          rw [pyBeq_iff, pyBeqD_iff]

end

instance : DecidableEq PyVal := fun a b =>
  decidable_of_iff (PyVal.beq a b = true) (pyBeq_iff a b)

/-- Truthiness: `None`, `0`, `""`, `False`, `[]` and the empty mapping are
falsy; everything else is truthy. -/
def PyVal.isTruthy : PyVal → Bool
  | .none => false
  | .int n => n != 0
  | .str s => s != ""
  | .bool b => b
  | .list l => !l.isEmpty
  | .dict d => !d.isEmpty

/-- The value-level `or`: returns the first operand when it is truthy,
otherwise the second. -/
def pyOr (a b : PyVal) : PyVal := if a.isTruthy then a else b

/-- Accumulate a decimal digit string into a number, failing on any
non-digit character. -/
def digitsToNatAux (acc : Nat) : List Char → Option Nat
  | [] => some acc
  | c :: cs =>
      if c.isDigit then digitsToNatAux (acc * 10 + (c.toNat - 48)) cs
      else Option.none

/-- Parse an integer literal: an optional sign followed by at least one
decimal digit. -/
def pyParseInt (s : String) : Option Int :=
  match s.data with
  | [] => Option.none
  | c :: cs =>
      if c = '-' then
        match cs with
        | [] => Option.none
        | _ => (digitsToNatAux 0 cs).map (fun n => -(n : Int))
      else if c = '+' then
        match cs with
        | [] => Option.none
        | _ => (digitsToNatAux 0 cs).map (fun n => (n : Int))
      else (digitsToNatAux 0 (c :: cs)).map (fun n => (n : Int))

/-- Integer coercion (`int(x)`): succeeds on integers, booleans and
integer-literal strings; fails (raises) on every other value. -/
def pyInt : PyVal → Option Int
  | .int n => some n
  | .bool b => some (if b then 1 else 0)
  | .str s => pyParseInt s
  | _ => Option.none

/-- Whether a value may be used as a mapping key (lists and mappings are
unhashable; assigning them as keys raises `TypeError`). -/
def PyVal.hashable : PyVal → Bool
  | .list _ => false
  | .dict _ => false
  | _ => true

/-- String conversion as used when synthesizing a category name.  For
lists and mappings a fixed placeholder is used: such an id is unhashable,
so the record carrying it is never stored and the rendering is
unobservable in any successful run. -/
def pyStr : PyVal → String
  | .none => "None"
  | .int n => toString n
  | .str s => s
  | .bool b => if b then "True" else "False"
  | .list _ => "[list]"
  | .dict _ => "[dict]"

/-- A raw category record: a mapping from field names to dynamic values. -/
abbrev RawRecord := List (String × PyVal)

/-- Mapping lookup with default (`d.get(key, default)`). -/
def dget : List (String × PyVal) → String → PyVal → PyVal
  | [], _, d => d
  | (k, v) :: rest, key, d => if k = key then v else dget rest key d

/-- The canonical category shape produced by the normalizer.  Fields that
the source stores verbatim (name, parent id, depth, browse-node flag) keep
the dynamic type; `product_count` is the result of the `int(...)` coercion. -/
structure CanonicalCategory where
  category_id : PyVal
  name : PyVal
  parent_id : PyVal
  children_ids : List PyVal
  product_count : Int
  depth : PyVal
  is_browse_node : PyVal
deriving DecidableEq

/-- The canonical map: an insertion-ordered mapping from category id to
canonical category, as a Python `dict`. -/
abbrev CanonMap := List (PyVal × CanonicalCategory)

/-- Python `dict` assignment: replace the value at an existing key in
place, otherwise append the binding at the end. -/
def dictSet : CanonMap → PyVal → CanonicalCategory → CanonMap
  | [], k, v => [(k, v)]
  | (k0, v0) :: rest, k, v =>
      if k0 = k then (k, v) :: rest else (k0, v0) :: dictSet rest k v

/-- Key membership in the canonical map (`key in d`). -/
def containsKey : CanonMap → PyVal → Bool
  | [], _ => false
  | (k0, _) :: rest, k => if k0 = k then true else containsKey rest k

/-- Lookup in the canonical map (`d.get(key)`). -/
def dictGet : CanonMap → PyVal → Option CanonicalCategory
  | [], _ => Option.none
  | (k0, v0) :: rest, k => if k0 = k then some v0 else dictGet rest k

/-- Synthesized fallback name for a category id. -/
def synthName (cat_id : PyVal) : PyVal := PyVal.str ("Category " ++ pyStr cat_id)

/-- Name resolution of the normalizer: a nested mapping tries its `name`,
`contextFreeName` then `catId` entries, taking the first truthy value and
falling back to the synthesized default; a string is used verbatim; any
other shape synthesizes the default. -/
def resolveName (cat : RawRecord) (cat_id : PyVal) : PyVal :=
  match dget cat "name" PyVal.none with
  | PyVal.dict nd =>
      pyOr (dget nd "name" PyVal.none)
        (pyOr (dget nd "contextFreeName" PyVal.none)
          (pyOr (dget nd "catId" PyVal.none) (synthName cat_id)))
  | PyVal.str s => PyVal.str s
  | _ => synthName cat_id

/-- Parent resolution: the top-level `parent_id` field, falling back to
the nested name mapping's `parent` entry when the former is falsy. -/
def resolveParent (cat : RawRecord) : PyVal :=
  let parent_id := dget cat "parent_id" PyVal.none
  if !parent_id.isTruthy then
    match dget cat "name" PyVal.none with
    | PyVal.dict nd => dget nd "parent" PyVal.none
    | _ => parent_id
  else parent_id

/-- Children resolution: the top-level `children_ids` field; when falsy
and the name field is a nested mapping, its truthy `children` entry is
used, a scalar being wrapped into a one-element list; a final shape check
replaces any non-list value by the empty list. -/
def resolveChildren (cat : RawRecord) : List PyVal :=
  let children_ids := dget cat "children_ids" (PyVal.list [])
  let children_ids :=
    if !children_ids.isTruthy then
      match dget cat "name" PyVal.none with
      | PyVal.dict nd =>
          let cfd := dget nd "children" PyVal.none
          if cfd.isTruthy then
            match cfd with
            | PyVal.list l => PyVal.list l
            | _ => PyVal.list [cfd]
          else children_ids
      | _ => children_ids
    else children_ids
  match children_ids with
  | PyVal.list l => l
  | _ => []

/-- Product-count resolution (before coercion): the top-level
`product_count` field, falling back to the nested name mapping's
`productCount` entry when the former is falsy. -/
def resolvePC (cat : RawRecord) : PyVal :=
  let pc := dget cat "product_count" (PyVal.int 0)
  if !pc.isTruthy then
    match dget cat "name" PyVal.none with
    | PyVal.dict nd => dget nd "productCount" (PyVal.int 0)
    | _ => pc
  else pc

/-- Browse-node flag: read from the nested name mapping's `isBrowseNode`
entry, defaulting to `False`. -/
def resolveBrowse (cat : RawRecord) : PyVal :=
  match dget cat "name" PyVal.none with
  | PyVal.dict nd => dget nd "isBrowseNode" (PyVal.bool false)
  | _ => PyVal.bool false

/-- Building the canonical category from one raw record.  The only
failing step is the `int(product_count)` coercion, attempted exactly when
the resolved value is truthy. -/
def normalizeRecord (cat : RawRecord) (cat_id : PyVal) :
    Except String CanonicalCategory :=
  match (if (resolvePC cat).isTruthy then
           match pyInt (resolvePC cat) with
           | some n => Except.ok n
           | Option.none => Except.error "ValueError: invalid literal for int"
         else Except.ok 0) with
  | Except.error e => Except.error e
  | Except.ok pcn =>
      Except.ok { category_id := cat_id, name := resolveName cat cat_id,
                  parent_id := resolveParent cat,
                  children_ids := resolveChildren cat,
                  product_count := pcn,
                  depth := dget cat "depth" (PyVal.int 0),
                  is_browse_node := resolveBrowse cat }

/-- One iteration of the normalization loop: records with a falsy
`category_id` are skipped; storing under an unhashable id raises. -/
def normStep (normalized : CanonMap) (cat : RawRecord) : Except String CanonMap :=
  let cat_id := dget cat "category_id" PyVal.none
  if !cat_id.isTruthy then Except.ok normalized
  else
    match normalizeRecord cat cat_id with
    | Except.error e => Except.error e
    | Except.ok c =>
        if !cat_id.hashable then Except.error "TypeError: unhashable type"
        else Except.ok (dictSet normalized cat_id c)

/-- The normalization loop from a given accumulated map. -/
def normalizeFrom (acc : CanonMap) : List RawRecord → Except String CanonMap
  | [] => Except.ok acc
  | cat :: rest =>
      match normStep acc cat with
      | Except.error e => Except.error e
      | Except.ok acc2 => normalizeFrom acc2 rest

/-- `normalize_category_data`: normalize a sequence of raw records into
the canonical map. -/
def normalize_category_data (categories : List RawRecord) : Except String CanonMap :=
  normalizeFrom [] categories

/-- `classify_category_type`: a category is a Root when its parent id is
falsy or not a key of the map, otherwise a Product Group when it has
declared children and a Sub-category when it has none. -/
def classify_category_type (cat : CanonicalCategory) (cat_dict : CanonMap) : String :=
  if !cat.parent_id.isTruthy || !containsKey cat_dict cat.parent_id then
    "Root Category"
  else if 0 < cat.children_ids.length then "Product Group"
  else "Sub-category"

/-- A node of the reconstructed tree: id, name, product count, recomputed
tree level, browse-node flag and the ordered list of child nodes. -/
inductive TreeNode where
  | mk : PyVal → PyVal → Int → Nat → PyVal → List TreeNode → TreeNode

/-- The id stored at a tree node. -/
def TreeNode.category_id : TreeNode → PyVal
  | .mk i _ _ _ _ _ => i

/-- The children of a tree node. -/
def TreeNode.children : TreeNode → List TreeNode
  | .mk _ _ _ _ _ cs => cs

/-- The implied children map: insertion-ordered mapping from a parent id
to the ids of the categories that declare it as parent. -/
abbrev ChildrenMap := List (PyVal × List PyVal)

/-- Append a child to the list held at a key, creating the entry at the
end when the key is new (defaultdict-append semantics). -/
def cmapAppend : ChildrenMap → PyVal → PyVal → ChildrenMap
  | [], p, c => [(p, [c])]
  | (k, l) :: rest, p, c =>
      if k = p then (k, l ++ [c]) :: rest else (k, l) :: cmapAppend rest p c

/-- Lookup in the implied children map, defaulting to the empty list. -/
def cmapGet : ChildrenMap → PyVal → List PyVal
  | [], _ => []
  | (k, l) :: rest, p => if k = p then l else cmapGet rest p

/-- Deduplication of a candidate-children list (`list(set(...))`),
modelled as keeping the first occurrence of each value. -/
def pyDedupAux (seen : List PyVal) : List PyVal → List PyVal
  | [] => []
  | x :: xs =>
      if x ∈ seen then pyDedupAux seen xs else x :: pyDedupAux (x :: seen) xs

/-- Deduplicate the union of declared and implied children. -/
def pyDedup (l : List PyVal) : List PyVal := pyDedupAux [] l

/-- Rebuild the lookup dict keyed by each category's `category_id` field
(the first step of `build_category_tree`). -/
def rekey (categories : CanonMap) : CanonMap :=
  categories.foldl (fun acc kc => dictSet acc kc.2.category_id kc.2) []

/-- One iteration of the root-discovery loop: a category whose parent id
is falsy or not a key of the lookup dict is recorded as a root (once);
otherwise an implied parent-to-child edge is recorded. -/
def rootsStep (cat_dict : CanonMap) (st : List PyVal × List PyVal × ChildrenMap)
    (kc : PyVal × CanonicalCategory) : List PyVal × List PyVal × ChildrenMap :=
  let roots := st.1
  let processed := st.2.1
  let children_map := st.2.2
  if !kc.2.parent_id.isTruthy || !containsKey cat_dict kc.2.parent_id then
    if kc.1 ∈ processed then (roots, processed, children_map)
    else (roots ++ [kc.1], kc.1 :: processed, children_map)
  else (roots, processed, cmapAppend children_map kc.2.parent_id kc.1)

/-- Root ids, processed set and implied children map for a canonical map. -/
def rootsAndChildren (categories : CanonMap) (cat_dict : CanonMap) :
    List PyVal × List PyVal × ChildrenMap :=
  categories.foldl (rootsStep cat_dict) ([], [], [])

/-- The children loop of `build_node`: each candidate child present in the
canonical map and not yet visited is expanded by the supplied
one-level-smaller node builder, the guard set being threaded through. -/
def buildChildrenAux (categories : CanonMap)
    (f : PyVal → Nat → List PyVal → Option (Option TreeNode × List PyVal)) :
    List PyVal → Nat → List PyVal → List TreeNode →
      Option (List TreeNode × List PyVal)
  | [], _, visited, acc => some (acc, visited)
  | c :: cs, level, visited, acc =>
      if containsKey categories c ∧ c ∉ visited then
        match f c level visited with
        | Option.none => Option.none
        | some (res, visited2) =>
            match res with
            | some node => buildChildrenAux categories f cs level visited2 (acc ++ [node])
            | Option.none => buildChildrenAux categories f cs level visited2 acc
      else buildChildrenAux categories f cs level visited acc

/-- Recursive construction of a tree node (`build_node`), with an explicit
fuel bound on recursion depth; `Option.none` at the outer layer signals
fuel exhaustion (proved unreachable for the bound used by
`build_category_tree`).  An id already in the guard set, or absent from
the canonical map, produces no node; otherwise the node's children are the
deduplicated union of declared and implied children, filtered to unvisited
ids present in the map. -/
def buildNode (categories : CanonMap) (children_map : ChildrenMap) :
    Nat → PyVal → Nat → List PyVal → Option (Option TreeNode × List PyVal)
  | 0, _, _, _ => Option.none
  | Nat.succ fuel, cat_id, level, visited =>
      if cat_id ∈ visited then some (Option.none, visited)
      else
        let visited1 := cat_id :: visited
        match dictGet categories cat_id with
        | Option.none => some (Option.none, visited1)
        | some cat =>
            let all_children := pyDedup (cat.children_ids ++ cmapGet children_map cat_id)
            match buildChildrenAux categories
                (fun c l v => buildNode categories children_map fuel c l v)
                all_children (level + 1) visited1 [] with
            | Option.none => Option.none
            | some (kids, visited2) =>
                some (some (TreeNode.mk cat_id cat.name cat.product_count level
                  cat.is_browse_node kids), visited2)

/-- `build_category_tree`: discover the roots, then build one tree per
root with a fresh guard set, returning the forest together with the
rekeyed lookup dict. -/
def build_category_tree (categories : CanonMap) : List TreeNode × CanonMap :=
  let cat_dict := rekey categories
  let rpc := rootsAndChildren categories cat_dict
  let tree := rpc.1.foldl (fun acc root_id =>
    match buildNode categories rpc.2.2 (categories.length + 1) root_id 0 [] with
    | some (some node, _) => acc ++ [node]
    | _ => acc) []
  (tree, cat_dict)

/-- The forest produced by tree reconstruction (the spec's
`build_forest` contract). -/
def build_forest (categories : CanonMap) : List TreeNode :=
  (build_category_tree categories).1

/-- Numeric reading of a dynamic value for the max-depth comparison
(integers and booleans compare numerically; the embedding treats any
other value as not greater). -/
def pyNum : PyVal → Option Int
  | .int n => some n
  | .bool b => some (if b then 1 else 0)
  | _ => Option.none

/-- Dynamic greater-than used by the max-depth update. -/
def pyGt (a b : PyVal) : Bool :=
  match pyNum a, pyNum b with
  | some x, some y => x > y
  | _, _ => false

/-- Statistics snapshot produced by the aggregation loop of
`analyze_categories`. -/
structure CategoryStats where
  total_categories : Nat
  root_categories : Nat
  sub_categories : Nat
  product_groups : Nat
  categories_with_products : Nat
  total_products : Int
  max_depth : PyVal
  category_types : List (PyVal × String)
deriving DecidableEq

/-- Assignment into the id-to-role mapping of the statistics. -/
def typesSet : List (PyVal × String) → PyVal → String → List (PyVal × String)
  | [], k, v => [(k, v)]
  | (k0, v0) :: rest, k, v =>
      if k0 = k then (k, v) :: rest else (k0, v0) :: typesSet rest k v

/-- Initial statistics: total set to the size of the canonical map, every
counter zero. -/
def initStats (cat_dict : CanonMap) : CategoryStats :=
  { total_categories := cat_dict.length, root_categories := 0,
    sub_categories := 0, product_groups := 0, categories_with_products := 0,
    total_products := 0, max_depth := PyVal.int 0, category_types := [] }

/-- One iteration of the aggregation loop: classify the category, bump the
matching role counter, account for a positive product count and track the
maximum source-declared depth. -/
def statsStep (cat_dict : CanonMap) (stats : CategoryStats)
    (kc : PyVal × CanonicalCategory) : CategoryStats :=
  let cat_type := classify_category_type kc.2 cat_dict
  let stats := { stats with category_types := typesSet stats.category_types kc.1 cat_type }
  let stats :=
    if cat_type = "Root Category" then
      { stats with root_categories := stats.root_categories + 1 }
    else if cat_type = "Sub-category" then
      { stats with sub_categories := stats.sub_categories + 1 }
    else if cat_type = "Product Group" then
      { stats with product_groups := stats.product_groups + 1 }
    else stats
  let stats :=
    if 0 < kc.2.product_count then
      { stats with categories_with_products := stats.categories_with_products + 1,
                   total_products := stats.total_products + kc.2.product_count }
    else stats
  if pyGt kc.2.depth stats.max_depth then { stats with max_depth := kc.2.depth }
  else stats

/-- The statistics aggregation loop of `analyze_categories`, iterating the
canonical map once. -/
def aggregateStats (cat_dict : CanonMap) : CategoryStats :=
  cat_dict.foldl (statsStep cat_dict) (initStats cat_dict)

/-- `analyze_categories`: normalize, build the forest and aggregate the
statistics. -/
def analyze_categories (categories : List RawRecord) :
    Except String (List TreeNode × CanonMap × CategoryStats) :=
  match normalize_category_data categories with
  | Except.error e => Except.error e
  | Except.ok cat_dict =>
      Except.ok ((build_category_tree cat_dict).1, cat_dict, aggregateStats cat_dict)

/-! Basic lemmas about the map operations. -/

theorem containsKey_mem_keys : ∀ (m : CanonMap) (k : PyVal),
    containsKey m k = true → k ∈ m.map Prod.fst := by
  intro m k
  induction m with
  | nil => intro h; simp [containsKey] at h
  | cons kc rest ih =>
      intro h
      obtain ⟨k0, v0⟩ := kc
      by_cases hk : k0 = k
      · simp [hk]
      · simp only [containsKey, if_neg hk] at h
        simp [ih h]

/-- The classifier always returns one of the three role strings. -/
theorem classify_trichotomy (cat : CanonicalCategory) (cat_dict : CanonMap) :
    classify_category_type cat cat_dict = "Root Category" ∨
    classify_category_type cat cat_dict = "Product Group" ∨
    classify_category_type cat cat_dict = "Sub-category" := by
  unfold classify_category_type
  split
  · exact Or.inl rfl
  · split
    · exact Or.inr (Or.inl rfl)
    · exact Or.inr (Or.inr rfl)

theorem statsStep_total (cat_dict : CanonMap) (s : CategoryStats)
    (kc : PyVal × CanonicalCategory) :
    (statsStep cat_dict s kc).total_categories = s.total_categories := by
  unfold statsStep
  dsimp only
  repeat' split
  all_goals rfl

theorem statsStep_roles (cat_dict : CanonMap) (s : CategoryStats)
    (kc : PyVal × CanonicalCategory) :
    (statsStep cat_dict s kc).root_categories
      + (statsStep cat_dict s kc).product_groups
      + (statsStep cat_dict s kc).sub_categories
      = s.root_categories + s.product_groups + s.sub_categories + 1 := by
  rcases classify_trichotomy kc.2 cat_dict with h | h | h <;>
    · unfold statsStep
      rw [h]
      dsimp only
      repeat' split
      all_goals simp_all
      all_goals omega

theorem foldl_statsStep_total (cat_dict : CanonMap) :
    ∀ (l : List (PyVal × CanonicalCategory)) (s : CategoryStats),
      (l.foldl (statsStep cat_dict) s).total_categories = s.total_categories := by
  intro l
  induction l with
  | nil => intro s; rfl
  | cons kc rest ih =>
      intro s
      simp only [List.foldl_cons, ih, statsStep_total]

theorem foldl_statsStep_roles (cat_dict : CanonMap) :
    ∀ (l : List (PyVal × CanonicalCategory)) (s : CategoryStats),
      (l.foldl (statsStep cat_dict) s).root_categories
        + (l.foldl (statsStep cat_dict) s).product_groups
        + (l.foldl (statsStep cat_dict) s).sub_categories
      = s.root_categories + s.product_groups + s.sub_categories + l.length := by
  intro l
  induction l with
  | nil => intro s; simp
  | cons kc rest ih =>
      intro s
      simp only [List.foldl_cons, List.length_cons, ih, statsStep_roles]
      omega

/-- C1: for every canonical map, the aggregation loop's three per-role
counters sum to `total_categories`, which equals the size of the map, and
the classifier assigns every category exactly one of the three roles. -/
theorem C1_role_counts_sum (cat_dict : CanonMap) :
    (aggregateStats cat_dict).root_categories
      + (aggregateStats cat_dict).product_groups
      + (aggregateStats cat_dict).sub_categories
      = (aggregateStats cat_dict).total_categories ∧
    (aggregateStats cat_dict).total_categories = cat_dict.length ∧
    ∀ cat : CanonicalCategory,
      classify_category_type cat cat_dict = "Root Category" ∨
      classify_category_type cat cat_dict = "Product Group" ∨
      classify_category_type cat cat_dict = "Sub-category" := by
  refine ⟨?_, ?_, fun cat => classify_trichotomy cat cat_dict⟩
  · unfold aggregateStats
    rw [foldl_statsStep_roles, foldl_statsStep_total]
    simp [initStats]
  · unfold aggregateStats
    rw [foldl_statsStep_total]
    rfl

/-- C2: over any canonical map whose keys are truthy ids (as every
normalizer output is), a category is classified Root exactly when its
parent id is `None` or not a key of the map; with a resolvable parent it
is a Product Group exactly when it has declared children and otherwise a
Sub-category. -/
theorem C2_classify_characterization (canon : CanonMap) (cat : CanonicalCategory)
    (hkeys : ∀ k ∈ canon.map Prod.fst, k.isTruthy = true) :
    (classify_category_type cat canon = "Root Category" ↔
      (cat.parent_id = PyVal.none ∨ containsKey canon cat.parent_id = false)) ∧
    (containsKey canon cat.parent_id = true →
      ((classify_category_type cat canon = "Product Group" ↔ cat.children_ids ≠ []) ∧
       (cat.children_ids = [] → classify_category_type cat canon = "Sub-category"))) := by
  have htr : containsKey canon cat.parent_id = true → cat.parent_id.isTruthy = true :=
    fun h => hkeys cat.parent_id (containsKey_mem_keys canon cat.parent_id h)
  constructor
  · constructor
    · intro h
      by_cases hc : containsKey canon cat.parent_id = true
      · left
        by_contra hne
        have ht := htr hc
        unfold classify_category_type at h
        rw [ht, hc] at h
        simp at h
        split at h <;> simp_all
      · right
        simpa using hc
    · intro h
      rcases h with h | h
      · unfold classify_category_type
        rw [h]
        rfl
      · unfold classify_category_type
        rw [h]
        simp
  · intro hc
    have ht := htr hc
    constructor
    · unfold classify_category_type
      rw [ht, hc]
      simp only [Bool.not_true, Bool.or_self, Bool.false_eq_true, if_false]
      constructor
      · intro h
        split at h <;> simp_all
        intro hnil
        simp [hnil] at *
      · intro h
        have : 0 < cat.children_ids.length := by
          cases hk : cat.children_ids with
          | nil => exact absurd hk h
          | cons a l => simp
        rw [if_pos this]
    · intro hnil
      unfold classify_category_type
      rw [ht, hc, hnil]
      rfl

/-- Concrete canonical map used to instantiate the classifier
characterization. -/
def w2cat1 : CanonicalCategory :=
  { category_id := PyVal.int 1, name := PyVal.str "A", parent_id := PyVal.none,
    children_ids := [PyVal.int 2], product_count := 0, depth := PyVal.int 0,
    is_browse_node := PyVal.bool false }

/-- Concrete category with a resolvable parent and no children. -/
def w2cat : CanonicalCategory :=
  { category_id := PyVal.int 2, name := PyVal.str "B", parent_id := PyVal.int 1,
    children_ids := [], product_count := 500, depth := PyVal.int 0,
    is_browse_node := PyVal.bool false }

/-- Concrete canonical map used to instantiate the classifier
characterization. -/
def w2canon : CanonMap := [(PyVal.int 1, w2cat1), (PyVal.int 2, w2cat)]

theorem C2_classify_characterization_witness :
    (∀ k ∈ w2canon.map Prod.fst, k.isTruthy = true) ∧
    ((classify_category_type w2cat w2canon = "Root Category" ↔
        (w2cat.parent_id = PyVal.none ∨ containsKey w2canon w2cat.parent_id = false)) ∧
     (containsKey w2canon w2cat.parent_id = true →
       ((classify_category_type w2cat w2canon = "Product Group" ↔ w2cat.children_ids ≠ []) ∧
        (w2cat.children_ids = [] → classify_category_type w2cat w2canon = "Sub-category")))) :=
  ⟨by decide, C2_classify_characterization w2canon w2cat (by decide)⟩

/-- First member of the two-element cycle: parent 2, child 2. -/
def cycCat1 : CanonicalCategory :=
  { category_id := PyVal.int 1, name := PyVal.str "A", parent_id := PyVal.int 2,
    children_ids := [PyVal.int 2], product_count := 0, depth := PyVal.int 0,
    is_browse_node := PyVal.bool false }

/-- Second member of the two-element cycle: parent 1, child 1. -/
def cycCat2 : CanonicalCategory :=
  { category_id := PyVal.int 2, name := PyVal.str "B", parent_id := PyVal.int 1,
    children_ids := [PyVal.int 1], product_count := 0, depth := PyVal.int 0,
    is_browse_node := PyVal.bool false }

/-- The two-element cyclic canonical map of the all-roots-absent scenario. -/
def cycCanon : CanonMap := [(PyVal.int 1, cycCat1), (PyVal.int 2, cycCat2)]

/-- C4: in the two-element cycle where each category lists the other as
parent and child, both parents resolve in the lookup dict, no category is
recorded as a root, and the reconstructed forest is empty even though both
categories remain in the canonical map. -/
theorem C4_cycle_yields_empty_forest :
    containsKey (rekey cycCanon) cycCat1.parent_id = true ∧
    containsKey (rekey cycCanon) cycCat2.parent_id = true ∧
    (rootsAndChildren cycCanon (rekey cycCanon)).1 = [] ∧
    build_forest cycCanon = [] ∧
    cycCanon.length = 2 ∧
    containsKey cycCanon (PyVal.int 1) = true ∧
    containsKey cycCanon (PyVal.int 2) = true :=
  ⟨rfl, rfl, rfl, rfl, rfl, rfl, rfl⟩

/-! Lemmas about dict assignment and the normalization loop. -/

theorem dictGet_dictSet_self : ∀ (m : CanonMap) (k : PyVal) (v : CanonicalCategory),
    dictGet (dictSet m k v) k = some v := by
  intro m k v
  induction m with
  | nil => simp [dictSet, dictGet]
  | cons kc rest ih =>
      obtain ⟨k0, v0⟩ := kc
      by_cases h : k0 = k
      · simp [dictSet, h, dictGet]
      · simp [dictSet, h, dictGet, ih]

theorem dictGet_dictSet_other : ∀ (m : CanonMap) (k k2 : PyVal) (v : CanonicalCategory),
    k2 ≠ k → dictGet (dictSet m k v) k2 = dictGet m k2 := by
  intro m k k2 v hne
  induction m with
  | nil =>
      simp only [dictSet, dictGet]
      rw [if_neg (fun h => hne h.symm)]
  | cons kc rest ih =>
      obtain ⟨k0, v0⟩ := kc
      by_cases h2 : k0 = k2
      · have hk : ¬ k0 = k := fun h => hne (h2 ▸ h)
        simp only [dictSet, if_neg hk, dictGet, if_pos h2]
      · by_cases h : k0 = k
        · simp only [dictSet, if_pos h, dictGet]
          rw [if_neg (fun hh => hne hh.symm), if_neg h2]
        · simp only [dictSet, if_neg h, dictGet, if_neg h2]
          exact ih

theorem dictSet_keys_mem : ∀ (m : CanonMap) (k : PyVal) (v : CanonicalCategory),
    containsKey m k = true → (dictSet m k v).map Prod.fst = m.map Prod.fst := by
  intro m k v
  induction m with
  | nil => intro h; simp [containsKey] at h
  | cons kc rest ih =>
      intro h
      obtain ⟨k0, v0⟩ := kc
      by_cases hk : k0 = k
      · simp [dictSet, hk]
      · simp only [containsKey, if_neg hk] at h
        simp [dictSet, hk, ih h]

theorem dictSet_keys_not_mem : ∀ (m : CanonMap) (k : PyVal) (v : CanonicalCategory),
    containsKey m k = false → (dictSet m k v).map Prod.fst = m.map Prod.fst ++ [k] := by
  intro m k v
  induction m with
  | nil => intro h; simp [dictSet]
  | cons kc rest ih =>
      intro h
      obtain ⟨k0, v0⟩ := kc
      by_cases hk : k0 = k
      · simp [containsKey, hk] at h
      · simp only [containsKey, if_neg hk] at h
        simp [dictSet, hk, ih h]

theorem containsKey_iff_mem_keys : ∀ (m : CanonMap) (k : PyVal),
    containsKey m k = true ↔ k ∈ m.map Prod.fst := by
  intro m k
  constructor
  · exact containsKey_mem_keys m k
  · intro h
    induction m with
    | nil => simp at h
    | cons kc rest ih =>
        obtain ⟨k0, v0⟩ := kc
        by_cases hk : k0 = k
        · simp [containsKey, hk]
        · simp only [List.map_cons, List.mem_cons] at h
          rcases h with h | h
          · exact absurd h.symm hk
          · simp [containsKey, hk, ih h]

/-- Invariant maintained for the keys of the accumulating canonical map:
truthy, hashable and duplicate-free. -/
def GoodKeys (m : CanonMap) : Prop :=
  (∀ k ∈ m.map Prod.fst, k.isTruthy = true ∧ k.hashable = true) ∧
    (m.map Prod.fst).Nodup

theorem goodKeys_dictSet (m : CanonMap) (k : PyVal) (v : CanonicalCategory)
    (hm : GoodKeys m) (hk : k.isTruthy = true) (hh : k.hashable = true) :
    GoodKeys (dictSet m k v) := by
  obtain ⟨hall, hnd⟩ := hm
  by_cases hc : containsKey m k = true
  · rw [GoodKeys, dictSet_keys_mem m k v hc]
    exact ⟨hall, hnd⟩
  · rw [GoodKeys, dictSet_keys_not_mem m k v (by simpa using hc)]
    constructor
    · intro k2 hk2
      rcases List.mem_append.mp hk2 with h | h
      · exact hall k2 h
      · simp at h
        subst h
        exact ⟨hk, hh⟩
    · rw [List.nodup_append]
      refine ⟨hnd, List.nodup_singleton k, ?_⟩
      intro a ha hb
      simp at hb
      subst hb
      have hck := (containsKey_iff_mem_keys m a).mpr ha
      simp [hck] at hc

/-- Characterization of one successful normalization step on a record
with a truthy id. -/
theorem normStep_ok_truthy (acc : CanonMap) (cat : RawRecord) (m2 : CanonMap)
    (ht : (dget cat "category_id" PyVal.none).isTruthy = true)
    (h : normStep acc cat = Except.ok m2) :
    ∃ c, normalizeRecord cat (dget cat "category_id" PyVal.none) = Except.ok c ∧
      (dget cat "category_id" PyVal.none).hashable = true ∧
      m2 = dictSet acc (dget cat "category_id" PyVal.none) c := by
  simp only [normStep, ht, Bool.not_true, Bool.false_eq_true, if_false] at h
  cases hn : normalizeRecord cat (dget cat "category_id" PyVal.none) with
  | error e => rw [hn] at h; cases h
  | ok c =>
      rw [hn] at h
      cases hh : (dget cat "category_id" PyVal.none).hashable with
      | false => rw [hh] at h; simp at h
      | true =>
          rw [hh] at h
          simp at h
          exact ⟨c, rfl, rfl, h.symm⟩

/-- A normalization step on a record with a falsy id returns the map
unchanged. -/
theorem normStep_falsy (acc : CanonMap) (cat : RawRecord)
    (ht : (dget cat "category_id" PyVal.none).isTruthy = false) :
    normStep acc cat = Except.ok acc := by
  simp [normStep, ht]

theorem normalizeFrom_goodKeys : ∀ (l : List RawRecord) (acc m : CanonMap),
    GoodKeys acc → normalizeFrom acc l = Except.ok m → GoodKeys m := by
  intro l
  induction l with
  | nil =>
      intro acc m hg h
      simp only [normalizeFrom] at h
      cases h
      exact hg
  | cons cat rest ih =>
      intro acc m hg h
      simp only [normalizeFrom] at h
      cases hs : normStep acc cat with
      | error e => rw [hs] at h; cases h
      | ok acc2 =>
          rw [hs] at h
          cases ht : (dget cat "category_id" PyVal.none).isTruthy with
          | false =>
              rw [normStep_falsy acc cat ht] at hs
              cases hs
              exact ih _ m hg h
          | true =>
              obtain ⟨c, hn, hh, heq⟩ := normStep_ok_truthy acc cat acc2 ht hs
              subst heq
              exact ih _ m (goodKeys_dictSet acc _ c hg ht hh) h

/-- The keys of any successfully normalized map are truthy, hashable and
duplicate-free. -/
theorem normalize_goodKeys (l : List RawRecord) (m : CanonMap)
    (h : normalize_category_data l = Except.ok m) : GoodKeys m :=
  normalizeFrom_goodKeys l [] m (by unfold GoodKeys; simp) h

/-- C10: a record with a falsy id (`0`, `""`, ...) is dropped by the
normalization step exactly as if it carried no id, and the integer `0` is
never a key of a successfully normalized canonical map. -/
theorem C10_falsy_id_never_stored (acc : CanonMap) (cat : RawRecord)
    (l : List RawRecord) (m : CanonMap) :
    ((dget cat "category_id" PyVal.none).isTruthy = false →
      normStep acc cat = Except.ok acc) ∧
    (normalize_category_data l = Except.ok m →
      containsKey m (PyVal.int 0) = false) := by
  constructor
  · exact normStep_falsy acc cat
  · intro h
    cases hc : containsKey m (PyVal.int 0) with
    | false => rfl
    | true =>
        have hmem := containsKey_mem_keys m (PyVal.int 0) hc
        have := ((normalize_goodKeys l m h).1 (PyVal.int 0) hmem).1
        simp [PyVal.isTruthy] at this

/-- Record carrying the falsy id `0`. -/
def c10rec : RawRecord := [("category_id", PyVal.int 0), ("name", PyVal.str "X")]

theorem C10_falsy_id_never_stored_witness :
    ((dget c10rec "category_id" PyVal.none).isTruthy = false ∧
      normStep [] c10rec = Except.ok []) ∧
    (normalize_category_data [c10rec] = Except.ok [] ∧
      containsKey [] (PyVal.int 0) = false) :=
  ⟨⟨by decide, (C10_falsy_id_never_stored [] c10rec [c10rec] []).1 (by decide)⟩,
   ⟨by rfl, (C10_falsy_id_never_stored [] c10rec [c10rec] []).2 (by rfl)⟩⟩

theorem normalizeFrom_append_split : ∀ (xs ys : List RawRecord) (acc m : CanonMap),
    normalizeFrom acc (xs ++ ys) = Except.ok m →
    ∃ m1, normalizeFrom acc xs = Except.ok m1 ∧ normalizeFrom m1 ys = Except.ok m := by
  intro xs
  induction xs with
  | nil =>
      intro ys acc m h
      exact ⟨acc, rfl, h⟩
  | cons cat rest ih =>
      intro ys acc m h
      simp only [List.cons_append, normalizeFrom] at h ⊢
      cases hs : normStep acc cat with
      | error e => rw [hs] at h; cases h
      | ok acc2 =>
          rw [hs] at h
          exact ih ys acc2 m h

theorem normalizeFrom_preserve (i : PyVal) : ∀ (ys : List RawRecord) (acc m : CanonMap),
    (∀ s ∈ ys, dget s "category_id" PyVal.none ≠ i) →
    normalizeFrom acc ys = Except.ok m →
    dictGet m i = dictGet acc i ∧
      (m.map Prod.fst).count i = (acc.map Prod.fst).count i := by
  intro ys
  induction ys with
  | nil =>
      intro acc m _ h
      simp only [normalizeFrom] at h
      cases h
      exact ⟨rfl, rfl⟩
  | cons s rest ih =>
      intro acc m hne h
      simp only [normalizeFrom] at h
      cases hs : normStep acc s with
      | error e => rw [hs] at h; cases h
      | ok acc2 =>
          rw [hs] at h
          have hrest := ih acc2 m (fun t htm => hne t (List.mem_cons_of_mem s htm)) h
          cases ht : (dget s "category_id" PyVal.none).isTruthy with
          | false =>
              rw [normStep_falsy acc s ht] at hs
              cases hs
              exact hrest
          | true =>
              obtain ⟨c, hn, hh, heq⟩ := normStep_ok_truthy acc s acc2 ht hs
              subst heq
              have hj : dget s "category_id" PyVal.none ≠ i :=
                hne s (List.mem_cons_self s rest)
              constructor
              · rw [hrest.1,
                  dictGet_dictSet_other acc _ i c (fun hx => hj hx.symm)]
              · rw [hrest.2]
                by_cases hck : containsKey acc (dget s "category_id" PyVal.none) = true
                · rw [dictSet_keys_mem acc _ c hck]
                · rw [dictSet_keys_not_mem acc _ c (by simpa using hck),
                    List.count_append]
                  have hnm : i ∉ [dget s "category_id" PyVal.none] := by
                    simp
                    exact fun hx => hj hx.symm
                  rw [List.count_eq_zero_of_not_mem hnm]
                  omega

/-- C5: when a record with a truthy id is followed only by records with
different ids, a successful normalization leaves exactly one entry under
that id, holding precisely the canonical category built from that record
(later records overwrite earlier ones). -/
theorem C5_last_write_wins (xs ys : List RawRecord) (r : RawRecord) (m : CanonMap)
    (ht : (dget r "category_id" PyVal.none).isTruthy = true)
    (hys : ∀ s ∈ ys, dget s "category_id" PyVal.none ≠ dget r "category_id" PyVal.none)
    (h : normalize_category_data (xs ++ r :: ys) = Except.ok m) :
    ∃ c, normalizeRecord r (dget r "category_id" PyVal.none) = Except.ok c ∧
      dictGet m (dget r "category_id" PyVal.none) = some c ∧
      (m.map Prod.fst).count (dget r "category_id" PyVal.none) = 1 := by
  unfold normalize_category_data at h
  obtain ⟨m1, h1, h2⟩ := normalizeFrom_append_split xs (r :: ys) [] m h
  simp only [normalizeFrom] at h2
  cases hs : normStep m1 r with
  | error e => rw [hs] at h2; cases h2
  | ok m2 =>
      rw [hs] at h2
      obtain ⟨c, hn, hh, heq⟩ := normStep_ok_truthy m1 r m2 ht hs
      subst heq
      obtain ⟨hget, hcount⟩ := normalizeFrom_preserve _ ys _ m hys h2
      refine ⟨c, hn, ?_, ?_⟩
      · rw [hget, dictGet_dictSet_self]
      · rw [hcount]
        have hg : GoodKeys m1 :=
          normalizeFrom_goodKeys xs [] m1 (by unfold GoodKeys; simp) h1
        have hg2 : GoodKeys (dictSet m1 (dget r "category_id" PyVal.none) c) :=
          goodKeys_dictSet m1 _ c hg ht hh
        obtain ⟨_, hnd2⟩ := hg2
        have hmem : dget r "category_id" PyVal.none ∈
            (dictSet m1 (dget r "category_id" PyVal.none) c).map Prod.fst := by
          by_cases hck : containsKey m1 (dget r "category_id" PyVal.none) = true
          · rw [dictSet_keys_mem m1 _ c hck]
            exact containsKey_mem_keys m1 _ hck
          · rw [dictSet_keys_not_mem m1 _ c (by simpa using hck)]
            simp
        exact List.count_eq_one_of_mem hnd2 hmem

/-- Earlier record sharing id 5. -/
def c5old : RawRecord := [("category_id", PyVal.int 5), ("name", PyVal.str "Old")]

/-- Later record sharing id 5. -/
def c5new : RawRecord := [("category_id", PyVal.int 5), ("name", PyVal.str "New")]

/-- Canonical map obtained from the two records sharing id 5. -/
def c5m : CanonMap :=
  [(PyVal.int 5,
    { category_id := PyVal.int 5, name := PyVal.str "New", parent_id := PyVal.none,
      children_ids := [], product_count := 0, depth := PyVal.int 0,
      is_browse_node := PyVal.bool false })]

theorem C5_last_write_wins_witness :
    (dget c5new "category_id" PyVal.none).isTruthy = true ∧
    normalize_category_data ([c5old] ++ c5new :: []) = Except.ok c5m ∧
    ∃ c, normalizeRecord c5new (dget c5new "category_id" PyVal.none) = Except.ok c ∧
      dictGet c5m (dget c5new "category_id" PyVal.none) = some c ∧
      (c5m.map Prod.fst).count (dget c5new "category_id" PyVal.none) = 1 :=
  ⟨by decide, by rfl,
   C5_last_write_wins [c5old] [] c5new c5m (by decide) (by simp) (by rfl)⟩

/-- Whether a dynamic value is a string. -/
def isStringVal : PyVal → Bool
  | .str _ => true
  | _ => false

/-- Field-level description of a successfully normalized record: every
verbatim field is the corresponding resolution, and the product count is
`0` for a falsy resolved value and the successful integer coercion
otherwise. -/
theorem normalizeRecord_ok_fields (cat : RawRecord) (i : PyVal) (c : CanonicalCategory)
    (h : normalizeRecord cat i = Except.ok c) :
    c.category_id = i ∧ c.name = resolveName cat i ∧ c.parent_id = resolveParent cat ∧
    c.children_ids = resolveChildren cat ∧ c.depth = dget cat "depth" (PyVal.int 0) ∧
    c.is_browse_node = resolveBrowse cat ∧
    ((resolvePC cat).isTruthy = false → c.product_count = 0) ∧
    ((resolvePC cat).isTruthy = true → pyInt (resolvePC cat) = some c.product_count) := by
  cases ht : (resolvePC cat).isTruthy with
  | false =>
      simp only [normalizeRecord, ht, Bool.false_eq_true, if_false] at h
      cases h
      refine ⟨rfl, rfl, rfl, rfl, rfl, rfl, fun _ => rfl, fun hcon => ?_⟩
      cases hcon
  | true =>
      simp only [normalizeRecord, ht, if_true] at h
      cases hpi : pyInt (resolvePC cat) with
      | none => rw [hpi] at h; cases h
      | some n =>
          rw [hpi] at h
          cases h
          refine ⟨rfl, rfl, rfl, rfl, rfl, rfl, fun hcon => ?_, fun _ => rfl⟩
          cases hcon

/-- Record kept with a verbatim empty-string name. -/
def c6rec1 : RawRecord := [("category_id", PyVal.int 1), ("name", PyVal.str "")]

/-- Record kept with a nested name mapping resolving to the integer 7. -/
def c6rec2 : RawRecord :=
  [("category_id", PyVal.int 2), ("name", PyVal.dict [("catId", PyVal.int 7)])]

/-- Canonical category produced for `c6rec1`: empty name. -/
def c6cat1 : CanonicalCategory :=
  { category_id := PyVal.int 1, name := PyVal.str "", parent_id := PyVal.none,
    children_ids := [], product_count := 0, depth := PyVal.int 0,
    is_browse_node := PyVal.bool false }

/-- Canonical category produced for `c6rec2`: integer name. -/
def c6cat2 : CanonicalCategory :=
  { category_id := PyVal.int 2, name := PyVal.int 7, parent_id := PyVal.none,
    children_ids := [], product_count := 0, depth := PyVal.int 0,
    is_browse_node := PyVal.bool false }

/-- C6 counterexample: normalization keeps a record whose canonical name
is the empty string (a string name is used verbatim even when empty), and
another whose canonical name is the integer 7 taken from the nested
mapping's `catId`; so the canonical name is neither always non-empty nor
always a string. -/
theorem C6_counterexample :
    normalize_category_data [c6rec1, c6rec2] =
      Except.ok [(PyVal.int 1, c6cat1), (PyVal.int 2, c6cat2)] ∧
    c6cat1.name = PyVal.str "" ∧ (PyVal.str "").isTruthy = false ∧
    c6cat2.name = PyVal.int 7 ∧ isStringVal c6cat2.name = false :=
  ⟨rfl, rfl, rfl, rfl, rfl⟩

/-- C6 amended: for every record kept by normalization, a string name
field is used verbatim (even when empty); a nested-mapping name field
resolves to the first truthy of its `name`, `contextFreeName` and `catId`
entries (a value that need not be a string), falling back to the
synthesized `Category {id}` default; any other name shape synthesizes the
default. -/
theorem C6_amended_name_resolution (cat : RawRecord) (i : PyVal) (c : CanonicalCategory)
    (h : normalizeRecord cat i = Except.ok c) :
    (∀ s, dget cat "name" PyVal.none = PyVal.str s → c.name = PyVal.str s) ∧
    (∀ nd, dget cat "name" PyVal.none = PyVal.dict nd →
      c.name =
        (if (dget nd "name" PyVal.none).isTruthy then dget nd "name" PyVal.none
         else if (dget nd "contextFreeName" PyVal.none).isTruthy then
           dget nd "contextFreeName" PyVal.none
         else if (dget nd "catId" PyVal.none).isTruthy then dget nd "catId" PyVal.none
         else PyVal.str ("Category " ++ pyStr i))) ∧
    ((∀ s, dget cat "name" PyVal.none ≠ PyVal.str s) →
     (∀ nd, dget cat "name" PyVal.none ≠ PyVal.dict nd) →
     c.name = PyVal.str ("Category " ++ pyStr i)) := by
  have hname := (normalizeRecord_ok_fields cat i c h).2.1
  refine ⟨?_, ?_, ?_⟩
  · intro s hs
    rw [hname]
    unfold resolveName
    rw [hs]
  · intro nd hnd
    rw [hname]
    unfold resolveName
    rw [hnd]
    simp only [pyOr, synthName]
  · intro hs hnd
    rw [hname]
    unfold resolveName
    cases hv : dget cat "name" PyVal.none with
    | str s => exact absurd hv (hs s)
    | dict nd => exact absurd hv (hnd nd)
    | none => simp [synthName]
    | int n => simp [synthName]
    | bool b => simp [synthName]
    | list l => simp [synthName]

theorem C6_amended_name_resolution_witness :
    normalizeRecord c6rec2 (PyVal.int 2) = Except.ok c6cat2 ∧
    ((∀ s, dget c6rec2 "name" PyVal.none = PyVal.str s → c6cat2.name = PyVal.str s) ∧
     (∀ nd, dget c6rec2 "name" PyVal.none = PyVal.dict nd →
       c6cat2.name =
         (if (dget nd "name" PyVal.none).isTruthy then dget nd "name" PyVal.none
          else if (dget nd "contextFreeName" PyVal.none).isTruthy then
            dget nd "contextFreeName" PyVal.none
          else if (dget nd "catId" PyVal.none).isTruthy then dget nd "catId" PyVal.none
          else PyVal.str ("Category " ++ pyStr (PyVal.int 2)))) ∧
     ((∀ s, dget c6rec2 "name" PyVal.none ≠ PyVal.str s) →
      (∀ nd, dget c6rec2 "name" PyVal.none ≠ PyVal.dict nd) →
      c6cat2.name = PyVal.str ("Category " ++ pyStr (PyVal.int 2)))) :=
  ⟨rfl, C6_amended_name_resolution c6rec2 (PyVal.int 2) c6cat2 rfl⟩

/-- C7 counterexample: normalization raises on a record whose truthy
`product_count` is not integer-coercible (`int("abc")`), and on a record
whose truthy id is unhashable; anomalies of these two shapes are fatal,
not recovered. -/
theorem C7_counterexample :
    normalize_category_data
        [[("category_id", PyVal.int 1), ("product_count", PyVal.str "abc")]] =
      Except.error "ValueError: invalid literal for int" ∧
    normalize_category_data
        [[("category_id", PyVal.list [PyVal.int 1]), ("name", PyVal.str "X")]] =
      Except.error "TypeError: unhashable type" :=
  ⟨rfl, rfl⟩

/-- A normalization step succeeds on any record whose id is falsy, or
hashable with an integer-coercible truthy product count. -/
theorem normStep_ok_of_good (acc : CanonMap) (cat : RawRecord)
    (h : (dget cat "category_id" PyVal.none).isTruthy = true →
      ((dget cat "category_id" PyVal.none).hashable = true ∧
       ((resolvePC cat).isTruthy = true → (pyInt (resolvePC cat)).isSome = true))) :
    ∃ acc2, normStep acc cat = Except.ok acc2 := by
  cases ht : (dget cat "category_id" PyVal.none).isTruthy with
  | false => exact ⟨acc, normStep_falsy acc cat ht⟩
  | true =>
      obtain ⟨hh, hpc⟩ := h ht
      have hrec : ∃ c, normalizeRecord cat (dget cat "category_id" PyVal.none) =
          Except.ok c := by
        cases hpt : (resolvePC cat).isTruthy with
        | false =>
            refine ⟨{ category_id := dget cat "category_id" PyVal.none, name := resolveName cat (dget cat "category_id" PyVal.none), parent_id := resolveParent cat, children_ids := resolveChildren cat, product_count := 0, depth := dget cat "depth" (PyVal.int 0), is_browse_node := resolveBrowse cat }, ?_⟩
            simp only [normalizeRecord, hpt, Bool.false_eq_true, if_false]
        | true =>
            cases hpi : pyInt (resolvePC cat) with
            | none =>
                rw [hpi] at hpc
                simp at hpc
                rw [hpt] at hpc
                cases hpc
            | some n =>
                refine ⟨{ category_id := dget cat "category_id" PyVal.none, name := resolveName cat (dget cat "category_id" PyVal.none), parent_id := resolveParent cat, children_ids := resolveChildren cat, product_count := n, depth := dget cat "depth" (PyVal.int 0), is_browse_node := resolveBrowse cat }, ?_⟩
                simp only [normalizeRecord, hpt, if_true, hpi]
      obtain ⟨c, hc⟩ := hrec
      refine ⟨dictSet acc (dget cat "category_id" PyVal.none) c, ?_⟩
      simp only [normStep, ht, Bool.not_true, Bool.false_eq_true, if_false, hc, hh,
        Bool.not_false]

theorem normalizeFrom_ok_of_good : ∀ (l : List RawRecord) (acc : CanonMap),
    (∀ cat ∈ l, (dget cat "category_id" PyVal.none).isTruthy = true →
      ((dget cat "category_id" PyVal.none).hashable = true ∧
       ((resolvePC cat).isTruthy = true → (pyInt (resolvePC cat)).isSome = true))) →
    ∃ m, normalizeFrom acc l = Except.ok m := by
  intro l
  induction l with
  | nil => intro acc _; exact ⟨acc, rfl⟩
  | cons cat rest ih =>
      intro acc hall
      obtain ⟨acc2, hs⟩ :=
        normStep_ok_of_good acc cat (hall cat (List.mem_cons_self cat rest))
      obtain ⟨m, hm⟩ :=
        ih acc2 (fun t htm => hall t (List.mem_cons_of_mem cat htm))
      refine ⟨m, ?_⟩
      simp only [normalizeFrom, hs, hm]

/-- C7 amended: normalization never raises provided every record with a
truthy id carries a hashable id and an integer-coercible truthy resolved
product count; all other malformed fields are recovered by the documented
defaults. -/
theorem C7_amended_no_raise (l : List RawRecord)
    (h : ∀ cat ∈ l, (dget cat "category_id" PyVal.none).isTruthy = true →
      ((dget cat "category_id" PyVal.none).hashable = true ∧
       ((resolvePC cat).isTruthy = true → (pyInt (resolvePC cat)).isSome = true))) :
    ∃ m, normalize_category_data l = Except.ok m :=
  normalizeFrom_ok_of_good l [] h

/-- Record with a numeric-string product count, exercising the coercion. -/
def c7rec : RawRecord := [("category_id", PyVal.int 1), ("product_count", PyVal.str "12")]

theorem C7_amended_no_raise_witness :
    (∀ cat ∈ [c7rec], (dget cat "category_id" PyVal.none).isTruthy = true →
      ((dget cat "category_id" PyVal.none).hashable = true ∧
       ((resolvePC cat).isTruthy = true → (pyInt (resolvePC cat)).isSome = true))) ∧
    ∃ m, normalize_category_data [c7rec] = Except.ok m :=
  ⟨by decide, C7_amended_no_raise [c7rec] (by decide)⟩

/-- Record declaring a negative product count. -/
def c9rec : RawRecord := [("category_id", PyVal.int 1), ("product_count", PyVal.int (-5))]

/-- Canonical category produced for `c9rec`. -/
def c9cat : CanonicalCategory :=
  { category_id := PyVal.int 1, name := PyVal.str "Category 1",
    parent_id := PyVal.none, children_ids := [], product_count := -5,
    depth := PyVal.int 0, is_browse_node := PyVal.bool false }

/-- C9 counterexample: a declared negative product count passes through
the integer coercion unchanged, so the canonical `product_count` is not
always non-negative. -/
theorem C9_counterexample :
    normalize_category_data [c9rec] = Except.ok [(PyVal.int 1, c9cat)] ∧
    c9cat.product_count = -5 ∧ c9cat.product_count < 0 :=
  ⟨rfl, rfl, by decide⟩

/-- C9 amended: the canonical `product_count` is an integer equal to `0`
when the resolved source value is falsy or absent, and to the integer
coercion of the resolved value otherwise (hence possibly negative). -/
theorem C9_amended_product_count (cat : RawRecord) (i : PyVal) (c : CanonicalCategory)
    (h : normalizeRecord cat i = Except.ok c) :
    ((resolvePC cat).isTruthy = false → c.product_count = 0) ∧
    ((resolvePC cat).isTruthy = true → pyInt (resolvePC cat) = some c.product_count) :=
  ⟨(normalizeRecord_ok_fields cat i c h).2.2.2.2.2.2.1,
   (normalizeRecord_ok_fields cat i c h).2.2.2.2.2.2.2⟩

theorem C9_amended_product_count_witness :
    normalizeRecord c9rec (PyVal.int 1) = Except.ok c9cat ∧
    (((resolvePC c9rec).isTruthy = false → c9cat.product_count = 0) ∧
     ((resolvePC c9rec).isTruthy = true →
       pyInt (resolvePC c9rec) = some c9cat.product_count)) :=
  ⟨rfl, C9_amended_product_count c9rec (PyVal.int 1) c9cat rfl⟩

/-- All category ids occurring anywhere in a forest, in pre-order. -/
def forestIds : List TreeNode → List PyVal
  | [] => []
  | TreeNode.mk i _ _ _ _ cs :: ts => i :: (forestIds cs ++ forestIds ts)

/-- All category ids occurring in a single subtree. -/
def nodeIds (t : TreeNode) : List PyVal := forestIds [t]

/-- Ids of an optional node result. -/
def optIds : Option TreeNode → List PyVal
  | some t => nodeIds t
  | Option.none => []

theorem forestIds_cons (t : TreeNode) (ts : List TreeNode) :
    forestIds (t :: ts) = nodeIds t ++ forestIds ts := by
  obtain ⟨i, a, b, d, e, cs⟩ := t
  simp [nodeIds, forestIds]

theorem nodeIds_mk (i a : PyVal) (b : Int) (d : Nat) (e : PyVal) (cs : List TreeNode) :
    nodeIds (TreeNode.mk i a b d e cs) = i :: forestIds cs := by
  simp [nodeIds, forestIds]

theorem category_id_mem_nodeIds (t : TreeNode) : t.category_id ∈ nodeIds t := by
  obtain ⟨i, a, b, d, e, cs⟩ := t
  simp [nodeIds, forestIds, TreeNode.category_id]

theorem pyDedupAux_subset : ∀ (l seen : List PyVal) (x : PyVal),
    x ∈ pyDedupAux seen l → x ∈ l := by
  intro l
  induction l with
  | nil => intro seen x h; simp [pyDedupAux] at h
  | cons y ys ih =>
      intro seen x h
      simp only [pyDedupAux] at h
      by_cases hy : y ∈ seen
      · rw [if_pos hy] at h
        exact List.mem_cons_of_mem y (ih seen x h)
      · rw [if_neg hy] at h
        rcases List.mem_cons.mp h with h | h
        · exact h ▸ List.mem_cons_self y ys
        · exact List.mem_cons_of_mem y (ih (y :: seen) x h)

theorem pyDedup_subset (l : List PyVal) (x : PyVal) (h : x ∈ pyDedup l) : x ∈ l :=
  pyDedupAux_subset l [] x h

theorem dictGet_mem_keys : ∀ (m : CanonMap) (k : PyVal) (v : CanonicalCategory),
    dictGet m k = some v → k ∈ m.map Prod.fst := by
  intro m k v
  induction m with
  | nil => intro h; simp [dictGet] at h
  | cons kc rest ih =>
      intro h
      obtain ⟨k0, v0⟩ := kc
      by_cases hk : k0 = k
      · simp [hk]
      · simp only [dictGet, if_neg hk] at h
        simp [ih h]

/-- Invariant of the children loop, parametric in the node builder: the
guard set only grows, the new subtrees' ids are duplicate-free, recorded
in the final guard set and disjoint from the initial one, and every new
child is an unvisited candidate from the list present in the map. -/
theorem buildChildrenAux_inv (canon : CanonMap)
    (f : PyVal → Nat → List PyVal → Option (Option TreeNode × List PyVal))
    (hf : ∀ c lvl vis r vis2, f c lvl vis = some (r, vis2) →
      (∀ x ∈ vis, x ∈ vis2) ∧ (optIds r).Nodup ∧
      (∀ x ∈ optIds r, x ∈ vis2 ∧ x ∉ vis) ∧
      (∀ node, r = some node → node.category_id = c)) :
    ∀ (cs : List PyVal) (lvl : Nat) (vis : List PyVal) (acc kids : List TreeNode)
      (vis2 : List PyVal),
      buildChildrenAux canon f cs lvl vis acc = some (kids, vis2) →
      (∀ x ∈ vis, x ∈ vis2) ∧
      ∃ nw, kids = acc ++ nw ∧ (forestIds nw).Nodup ∧
        (∀ x ∈ forestIds nw, x ∈ vis2 ∧ x ∉ vis) ∧
        (∀ t ∈ nw, t.category_id ∈ cs ∧ containsKey canon t.category_id = true ∧
          t.category_id ∉ vis) := by
  intro cs
  induction cs with
  | nil =>
      intro lvl vis acc kids vis2 h
      simp only [buildChildrenAux] at h
      cases h
      exact ⟨fun x hx => hx, [], by simp, by simp [forestIds], by simp [forestIds],
        by simp⟩
  | cons c cs ih =>
      intro lvl vis acc kids vis2 h
      simp only [buildChildrenAux] at h
      by_cases hcond : containsKey canon c = true ∧ c ∉ vis
      · rw [if_pos hcond] at h
        cases hf1 : f c lvl vis with
        | none => rw [hf1] at h; cases h
        | some p =>
            obtain ⟨r, vis1⟩ := p
            rw [hf1] at h
            obtain ⟨hmono1, hnodup1, hin1, hroot1⟩ := hf c lvl vis r vis1 hf1
            cases r with
            | none =>
                obtain ⟨hmono2, nw, hkids, hnodup2, hin2, hroots2⟩ :=
                  ih lvl vis1 acc kids vis2 h
                refine ⟨fun x hx => hmono2 x (hmono1 x hx), nw, hkids, hnodup2,
                  fun x hx => ⟨(hin2 x hx).1, fun hxv => (hin2 x hx).2 (hmono1 x hxv)⟩,
                  fun t ht => ⟨List.mem_cons_of_mem c (hroots2 t ht).1,
                    (hroots2 t ht).2.1,
                    fun hv => (hroots2 t ht).2.2 (hmono1 _ hv)⟩⟩
            | some node =>
                obtain ⟨hmono2, nw1, hkids, hnodup2, hin2, hroots2⟩ :=
                  ih lvl vis1 (acc ++ [node]) kids vis2 h
                refine ⟨fun x hx => hmono2 x (hmono1 x hx), node :: nw1, ?_, ?_, ?_, ?_⟩
                · rw [hkids, List.append_assoc]
                  rfl
                · rw [forestIds_cons, List.nodup_append]
                  simp only [optIds] at hnodup1 hin1
                  refine ⟨hnodup1, hnodup2, ?_⟩
                  intro a ha hb
                  exact (hin2 a hb).2 ((hin1 a ha).1)
                · intro x hx
                  rw [forestIds_cons] at hx
                  rcases List.mem_append.mp hx with hx | hx
                  · simp only [optIds] at hin1
                    exact ⟨hmono2 x (hin1 x hx).1, (hin1 x hx).2⟩
                  · exact ⟨(hin2 x hx).1, fun hv => (hin2 x hx).2 (hmono1 x hv)⟩
                · intro t ht
                  rcases List.mem_cons.mp ht with ht | ht
                  · subst ht
                    rw [hroot1 t rfl]
                    exact ⟨List.mem_cons_self c cs, hcond.1, hcond.2⟩
                  · exact ⟨List.mem_cons_of_mem c (hroots2 t ht).1,
                      (hroots2 t ht).2.1,
                      fun hv => (hroots2 t ht).2.2 (hmono1 _ hv)⟩
      · rw [if_neg hcond] at h
        obtain ⟨hmono2, nw, hkids, hnodup2, hin2, hroots2⟩ :=
          ih lvl vis acc kids vis2 h
        exact ⟨hmono2, nw, hkids, hnodup2, hin2,
          fun t ht => ⟨List.mem_cons_of_mem c (hroots2 t ht).1, (hroots2 t ht).2.1,
            (hroots2 t ht).2.2⟩⟩

/-- Invariant of the recursive node builder: the guard set only grows, the
resulting subtree's ids are duplicate-free, recorded in the final guard
set and disjoint from the initial one, and a produced node is rooted at
the requested id. -/
theorem buildNode_inv (canon : CanonMap) (cmap : ChildrenMap) :
    ∀ (fuel : Nat) (c : PyVal) (lvl : Nat) (vis : List PyVal)
      (r : Option TreeNode) (vis2 : List PyVal),
      buildNode canon cmap fuel c lvl vis = some (r, vis2) →
      (∀ x ∈ vis, x ∈ vis2) ∧ (optIds r).Nodup ∧
      (∀ x ∈ optIds r, x ∈ vis2 ∧ x ∉ vis) ∧
      (∀ node, r = some node → node.category_id = c) := by
  intro fuel
  induction fuel with
  | zero =>
      intro c lvl vis r vis2 h
      cases h
  | succ fuel ih =>
      intro c lvl vis r vis2 h
      simp only [buildNode] at h
      by_cases hv : c ∈ vis
      · rw [if_pos hv] at h
        cases h
        exact ⟨fun x hx => hx, by simp [optIds], by simp [optIds], by simp⟩
      · rw [if_neg hv] at h
        split at h
        · cases h
          exact ⟨fun x hx => List.mem_cons_of_mem c hx, by simp [optIds],
            by simp [optIds], by simp⟩
        · rename_i cat heq
          split at h
          · cases h
          · rename_i kids vis3 heq2
            cases h
            obtain ⟨hmono, nw, hkids, hnodup, hin, hroots⟩ :=
              buildChildrenAux_inv canon _
                (fun c2 lvl2 visb r2 v2 h2 => ih c2 lvl2 visb r2 v2 h2)
                _ _ _ _ _ _ heq2
            simp only [List.nil_append] at hkids
            subst hkids
            refine ⟨fun x hx => hmono x (List.mem_cons_of_mem c hx), ?_, ?_, ?_⟩
            · simp only [optIds, nodeIds_mk]
              rw [List.nodup_cons]
              refine ⟨fun hc => ?_, hnodup⟩
              exact (hin c hc).2 (List.mem_cons_self c vis)
            · intro x hx
              simp only [optIds, nodeIds_mk] at hx
              rcases List.mem_cons.mp hx with hx | hx
              · subst hx
                exact ⟨hmono x (List.mem_cons_self x vis), hv⟩
              · refine ⟨(hin x hx).1, fun hxv => ?_⟩
                exact (hin x hx).2 (List.mem_cons_of_mem c hxv)
            · intro node hn
              cases hn
              rfl

/-- Number of canonical-map keys not yet in the guard set: the decreasing
measure of the traversal. -/
def unvisitedCount (canon : CanonMap) (vis : List PyVal) : Nat :=
  ((canon.map Prod.fst).filter (fun k => decide (k ∉ vis))).length

theorem filter_notin_mono : ∀ (l vis vis2 : List PyVal),
    (∀ x ∈ vis, x ∈ vis2) →
    (l.filter (fun k => decide (k ∉ vis2))).length ≤
      (l.filter (fun k => decide (k ∉ vis))).length := by
  intro l vis vis2 hsub
  refine List.Sublist.length_le (List.monotone_filter_right l ?_)
  intro a ha
  simp only [decide_eq_true_eq] at ha ⊢
  exact fun hx => ha (hsub a hx)

theorem unvisitedCount_mono (canon : CanonMap) (vis vis2 : List PyVal)
    (hsub : ∀ x ∈ vis, x ∈ vis2) :
    unvisitedCount canon vis2 ≤ unvisitedCount canon vis :=
  filter_notin_mono (canon.map Prod.fst) vis vis2 hsub

theorem filter_notin_cons_lt : ∀ (l : List PyVal) (c : PyVal) (vis : List PyVal),
    c ∈ l → c ∉ vis →
    (l.filter (fun k => decide (k ∉ (c :: vis)))).length <
      (l.filter (fun k => decide (k ∉ vis))).length := by
  intro l
  induction l with
  | nil => intro c vis hc _; simp at hc
  | cons a l ih =>
      intro c vis hc hcv
      by_cases hac : a = c
      · subst hac
        rw [List.filter_cons_of_neg (by simp),
          List.filter_cons_of_pos (by simp [hcv]), List.length_cons]
        exact Nat.lt_succ_of_le (filter_notin_mono l vis (a :: vis)
          (fun x hx => List.mem_cons_of_mem a hx))
      · have hc2 : c ∈ l := by
          rcases List.mem_cons.mp hc with h | h
          · exact absurd h.symm hac
          · exact h
        by_cases ha : a ∈ vis
        · have ha2 : a ∈ c :: vis := List.mem_cons_of_mem c ha
          rw [List.filter_cons_of_neg (by simp [ha2]),
            List.filter_cons_of_neg (by simp [ha])]
          exact ih c vis hc2 hcv
        · have ha2 : a ∉ c :: vis := by
            intro hx
            rcases List.mem_cons.mp hx with hx | hx
            · exact hac hx
            · exact ha hx
          rw [List.filter_cons_of_pos (by simp [ha2]),
            List.filter_cons_of_pos (by simp [ha]), List.length_cons,
            List.length_cons]
          exact Nat.succ_lt_succ (ih c vis hc2 hcv)

theorem unvisitedCount_cons_lt (canon : CanonMap) (c : PyVal) (vis : List PyVal)
    (hc : c ∈ canon.map Prod.fst) (hcv : c ∉ vis) :
    unvisitedCount canon (c :: vis) < unvisitedCount canon vis :=
  filter_notin_cons_lt (canon.map Prod.fst) c vis hc hcv

/-- The children loop never exhausts the fuel when the fuel exceeds the
number of unvisited keys. -/
theorem buildChildrenAux_fuel (canon : CanonMap) (cmap : ChildrenMap) (fuel : Nat)
    (hfT : ∀ c lvl vis, unvisitedCount canon vis < fuel →
      buildNode canon cmap fuel c lvl vis ≠ Option.none) :
    ∀ (cs : List PyVal) (lvl : Nat) (vis : List PyVal) (acc : List TreeNode),
      unvisitedCount canon vis < fuel →
      buildChildrenAux canon (fun c l v => buildNode canon cmap fuel c l v)
        cs lvl vis acc ≠ Option.none := by
  intro cs
  induction cs with
  | nil =>
      intro lvl vis acc hm
      simp [buildChildrenAux]
  | cons c cs ih =>
      intro lvl vis acc hm
      simp only [buildChildrenAux]
      by_cases hcond : containsKey canon c = true ∧ c ∉ vis
      · rw [if_pos hcond]
        cases hb : buildNode canon cmap fuel c lvl vis with
        | none => exact absurd hb (hfT c lvl vis hm)
        | some p =>
            obtain ⟨r, vis1⟩ := p
            have hmono := (buildNode_inv canon cmap fuel c lvl vis r vis1 hb).1
            have hm1 : unvisitedCount canon vis1 < fuel :=
              lt_of_le_of_lt (unvisitedCount_mono canon vis vis1 hmono) hm
            simp only [hb]
            cases r with
            | none => exact ih lvl vis1 acc hm1
            | some node => exact ih lvl vis1 (acc ++ [node]) hm1
      · rw [if_neg hcond]
        exact ih lvl vis acc hm

/-- The node builder never exhausts the fuel when the fuel exceeds the
number of unvisited keys. -/
theorem buildNode_fuel (canon : CanonMap) (cmap : ChildrenMap) :
    ∀ (fuel : Nat) (c : PyVal) (lvl : Nat) (vis : List PyVal),
      unvisitedCount canon vis < fuel →
      buildNode canon cmap fuel c lvl vis ≠ Option.none := by
  intro fuel
  induction fuel with
  | zero =>
      intro c lvl vis hm
      exact absurd hm (Nat.not_lt_zero _)
  | succ fuel ih =>
      intro c lvl vis hm
      simp only [buildNode]
      by_cases hv : c ∈ vis
      · rw [if_pos hv]
        simp
      · rw [if_neg hv]
        cases hg : dictGet canon c with
        | none => simp [hg]
        | some cat =>
            simp only [hg]
            have hc : c ∈ canon.map Prod.fst := dictGet_mem_keys canon c cat hg
            have hstrict := unvisitedCount_cons_lt canon c vis hc hv
            have hm1 : unvisitedCount canon (c :: vis) < fuel := by omega
            cases hb : buildChildrenAux canon
                (fun c2 l v => buildNode canon cmap fuel c2 l v)
                (pyDedup (cat.children_ids ++ cmapGet cmap c)) (lvl + 1)
                (c :: vis) [] with
            | none =>
                exact absurd hb (buildChildrenAux_fuel canon cmap fuel
                  (fun c2 l2 v2 hm2 => ih c2 l2 v2 hm2) _ (lvl + 1) (c :: vis) [] hm1)
            | some p =>
                obtain ⟨kids, vis3⟩ := p
                simp [hb]

/-- Every tree of the root-building fold comes from a successful
`buildNode` call on some root id with a fresh guard set. -/
theorem mem_tree_foldl (canon : CanonMap) (cmap : ChildrenMap) (fuel : Nat) :
    ∀ (roots : List PyVal) (acc : List TreeNode) (t : TreeNode),
      t ∈ roots.foldl (fun acc2 root_id =>
        match buildNode canon cmap fuel root_id 0 [] with
        | some (some node, _) => acc2 ++ [node]
        | _ => acc2) acc →
      t ∈ acc ∨ ∃ rid vis, buildNode canon cmap fuel rid 0 [] = some (some t, vis) := by
  intro roots
  induction roots with
  | nil =>
      intro acc t h
      exact Or.inl h
  | cons r rs ih =>
      intro acc t h
      simp only [List.foldl_cons] at h
      rcases ih _ t h with hmem | hex
      · cases hb : buildNode canon cmap fuel r 0 [] with
        | none =>
            simp only [hb] at hmem
            exact Or.inl hmem
        | some p =>
            obtain ⟨r2, vis⟩ := p
            cases r2 with
            | none =>
                simp only [hb] at hmem
                exact Or.inl hmem
            | some node =>
                simp only [hb] at hmem
                rcases List.mem_append.mp hmem with hmem | hmem
                · exact Or.inl hmem
                · simp only [List.mem_singleton] at hmem
                  subst hmem
                  exact Or.inr ⟨r, vis, hb⟩
      · exact Or.inr hex

/-- C3: tree reconstruction terminates on every canonical map, cyclic
ones included — with the fuel bound used by `build_category_tree` the
recursion never bottoms out, from any starting id — and within any single
tree of the resulting forest every category id appears at most once. -/
theorem C3_build_forest_terminates_no_dup (canon : CanonMap) :
    (∀ (root_id : PyVal) (lvl : Nat),
      buildNode canon (rootsAndChildren canon (rekey canon)).2.2
        (canon.length + 1) root_id lvl [] ≠ Option.none) ∧
    ∀ t ∈ build_forest canon, (nodeIds t).Nodup := by
  constructor
  · intro root_id lvl
    apply buildNode_fuel
    have h1 := List.length_filter_le (fun k => decide (k ∉ ([] : List PyVal)))
      (canon.map Prod.fst)
    unfold unvisitedCount
    rw [List.length_map] at h1
    omega
  · intro t ht
    unfold build_forest build_category_tree at ht
    simp only at ht
    rcases mem_tree_foldl canon _ (canon.length + 1) _ [] t ht with h0 | ⟨rid, vis, hb⟩
    · simp at h0
    · have hinv := (buildNode_inv canon _ (canon.length + 1) rid 0 [] (some t) vis hb).2.1
      simpa [optIds] using hinv

/-- The concrete root tree built over `w2canon`. -/
def nodeW : TreeNode :=
  TreeNode.mk (PyVal.int 1) (PyVal.str "A") 0 0 (PyVal.bool false)
    [TreeNode.mk (PyVal.int 2) (PyVal.str "B") 500 1 (PyVal.bool false) []]

theorem C3_build_forest_terminates_no_dup_witness :
    buildNode w2canon (rootsAndChildren w2canon (rekey w2canon)).2.2
      (w2canon.length + 1) (PyVal.int 1) 0 [] ≠ Option.none ∧
    nodeW ∈ build_forest w2canon ∧ (nodeIds nodeW).Nodup :=
  ⟨(C3_build_forest_terminates_no_dup w2canon).1 (PyVal.int 1) 0,
   by rw [show build_forest w2canon = [nodeW] from rfl]; exact List.mem_singleton_self _,
   (C3_build_forest_terminates_no_dup w2canon).2 nodeW
     (by rw [show build_forest w2canon = [nodeW] from rfl]; exact List.mem_singleton_self _)⟩

theorem roots_mem_forestIds : ∀ (ts : List TreeNode) (t : TreeNode),
    t ∈ ts → t.category_id ∈ forestIds ts := by
  intro ts
  induction ts with
  | nil => intro t h; simp at h
  | cons s ss ih =>
      intro t h
      rw [forestIds_cons]
      rcases List.mem_cons.mp h with h | h
      · subst h
        exact List.mem_append_left _ (category_id_mem_nodeIds t)
      · exact List.mem_append_right _ (ih t h)

theorem forestIds_nodup_roots : ∀ (ts : List TreeNode),
    (forestIds ts).Nodup → (ts.map TreeNode.category_id).Nodup := by
  intro ts
  induction ts with
  | nil => intro _; simp
  | cons t ts ih =>
      intro h
      rw [forestIds_cons, List.nodup_append] at h
      obtain ⟨h1, h2, hdis⟩ := h
      rw [List.map_cons, List.nodup_cons]
      refine ⟨?_, ih h2⟩
      intro hmem
      rcases List.mem_map.mp hmem with ⟨s, hs, hseq⟩
      have hsin : s.category_id ∈ forestIds ts := roots_mem_forestIds ts s hs
      exact hdis (category_id_mem_nodeIds t) (hseq ▸ hsin)

/-- C8: the children of any node produced by the tree builder are drawn
from the union of the node's declared children and its implied-children
entries, are keys of the canonical map, were unvisited when the node was
entered and differ from the node's own id; each id contributes at most one
child. -/
theorem C8_children_from_union (canon : CanonMap) (cmap : ChildrenMap) (fuel : Nat)
    (c : PyVal) (lvl : Nat) (vis vis2 : List PyVal) (cat : CanonicalCategory)
    (node : TreeNode)
    (hg : dictGet canon c = some cat)
    (h : buildNode canon cmap fuel c lvl vis = some (some node, vis2)) :
    (node.children.map TreeNode.category_id).Nodup ∧
    ∀ t ∈ node.children,
      t.category_id ∈ cat.children_ids ++ cmapGet cmap c ∧
      containsKey canon t.category_id = true ∧
      t.category_id ∉ vis ∧ t.category_id ≠ c := by
  cases fuel with
  | zero => cases h
  | succ fuel =>
      simp only [buildNode] at h
      by_cases hv : c ∈ vis
      · rw [if_pos hv] at h
        cases h
      · rw [if_neg hv] at h
        split at h
        · cases h
        · rename_i cat2 heq
          have hcc : cat2 = cat := by
            rw [hg] at heq
            exact (Option.some.inj heq).symm
          subst hcc
          split at h
          · cases h
          · rename_i kids vis3 heq2
            cases h
            obtain ⟨hmono, nw, hkids, hnodup, hin, hroots⟩ :=
              buildChildrenAux_inv canon _
                (fun c2 l2 v2 r2 vv h2 => buildNode_inv canon cmap fuel c2 l2 v2 r2 vv h2)
                _ _ _ _ _ _ heq2
            simp only [List.nil_append] at hkids
            subst hkids
            constructor
            · simp only [TreeNode.children]
              exact forestIds_nodup_roots _ hnodup
            · intro t ht
              simp only [TreeNode.children] at ht
              have h1 := hroots t ht
              exact ⟨pyDedup_subset _ _ h1.1, h1.2.1,
                fun hvv => h1.2.2 (List.mem_cons_of_mem c hvv),
                fun hcc2 => h1.2.2 (hcc2 ▸ List.mem_cons_self c vis)⟩

/-- Children map used to instantiate the child-set characterization. -/
def cmapW : ChildrenMap := [(PyVal.int 1, [PyVal.int 2])]

theorem C8_children_from_union_witness :
    dictGet w2canon (PyVal.int 1) = some w2cat1 ∧
    buildNode w2canon cmapW 3 (PyVal.int 1) 0 [] =
      some (some nodeW, [PyVal.int 2, PyVal.int 1]) ∧
    ((nodeW.children.map TreeNode.category_id).Nodup ∧
     ∀ t ∈ nodeW.children,
       t.category_id ∈ w2cat1.children_ids ++ cmapGet cmapW (PyVal.int 1) ∧
       containsKey w2canon t.category_id = true ∧
       t.category_id ∉ ([] : List PyVal) ∧ t.category_id ≠ PyVal.int 1) :=
  ⟨rfl, rfl,
   C8_children_from_union w2canon cmapW 3 (PyVal.int 1) 0 [] [PyVal.int 2, PyVal.int 1]
     w2cat1 nodeW rfl rfl⟩
